import Mathlib

/-!
Verification of the document image pipeline of the eVoteSecurely repository.

The JavaScript/TypeScript sources are shallowly embedded: images are total
functions from coordinates to 8-bit values, JavaScript numbers are modelled
as exact rationals, typed-array stores model the ECMAScript conversions
(Uint8ClampedArray rounds ties-to-even after clamping, Uint32Array wraps
modulo 2^32), and fallible code returns Option/Except.
-/

set_option maxHeartbeats 2000000
set_option maxRecDepth 4000

namespace IDPipe

/-- Model of JavaScript Math.round: floor(q + 1/2). -/
def jround (q : ℚ) : ℤ := ⌊q + 1/2⌋

/-- Round to nearest integer with ties to even: the rounding performed when a
JavaScript number is stored into a Uint8ClampedArray (ECMAScript ToUint8Clamp). -/
def rte (q : ℚ) : ℤ :=
  if q - ⌊q⌋ < 1/2 then ⌊q⌋
  else if (1 : ℚ)/2 < q - ⌊q⌋ then ⌊q⌋ + 1
  else if ⌊q⌋ % 2 = 0 then ⌊q⌋ else ⌊q⌋ + 1

/-- Uint8ClampedArray store of a JavaScript number: clamp to [0, 255] and
round to the nearest integer, ties to even. -/
def u8 (q : ℚ) : ℕ := (rte (max 0 (min 255 q))).toNat

/-! ## utils/imagePreprocessing.ts : adaptive thresholding -/

/-- Accumulated value of the `rowSum` variable of `applyAdaptiveThresholding`
after processing column `x` of row `y` (exact: it lives in a JavaScript
number, not in the Uint32Array). -/
def rowSum (g : ℕ → ℕ → ℕ) (y x : ℕ) : ℕ := ∑ i ∈ Finset.range (x + 1), g i y

/-- The summed-area table of `applyAdaptiveThresholding`.  Each entry is
stored into a `Uint32Array`, so it wraps modulo 2^32 (ECMAScript ToUint32):
`integralImage[y*width+x] = rowSum + integralImage[(y-1)*width+x]`. -/
def integralImage (g : ℕ → ℕ → ℕ) (x : ℕ) : ℕ → ℕ
  | 0 => rowSum g 0 x % 2 ^ 32
  | y + 1 => (rowSum g (y + 1) x + integralImage g x y) % 2 ^ 32

/-- Lower neighbourhood bound `Math.max(0, v - halfBlock)` (ℕ subtraction
truncates at 0, exactly like the clamped JavaScript expression). -/
def blockLo (blockSize v : ℕ) : ℕ := v - blockSize / 2

/-- Upper neighbourhood bound `Math.min(bound - 1, v + halfBlock)`. -/
def blockHi (bound blockSize v : ℕ) : ℕ := min (bound - 1) (v + blockSize / 2)

/-- Number of pixels `(x2 - x1 + 1) * (y2 - y1 + 1)` of the clamped
neighbourhood of `(x, y)`. -/
def blockCount (w h blockSize x y : ℕ) : ℕ :=
  (blockHi w blockSize x - blockLo blockSize x + 1) *
    (blockHi h blockSize y - blockLo blockSize y + 1)

/-- Direct sum of the grayscale values of the clamped neighbourhood of
`(x, y)`; used by the brute-force reference computation. -/
def blockSum (g : ℕ → ℕ → ℕ) (w h blockSize x y : ℕ) : ℕ :=
  ∑ j ∈ Finset.Icc (blockLo blockSize y) (blockHi h blockSize y),
    ∑ i ∈ Finset.Icc (blockLo blockSize x) (blockHi w blockSize x), g i j

/-- Neighbourhood sum as `applyAdaptiveThresholding` computes it: four
lookups into the (wrapping) integral image with inclusion-exclusion. -/
def integralBlockSum (g : ℕ → ℕ → ℕ) (w h blockSize x y : ℕ) : ℤ :=
  let x1 := blockLo blockSize x
  let y1 := blockLo blockSize y
  let x2 := blockHi w blockSize x
  let y2 := blockHi h blockSize y
  (integralImage g x2 y2 : ℤ)
    - (if 0 < x1 then (integralImage g (x1 - 1) y2 : ℤ) else 0)
    - (if 0 < y1 then (integralImage g x2 (y1 - 1) : ℤ) else 0)
    + (if 0 < x1 ∧ 0 < y1 then (integralImage g (x1 - 1) (y1 - 1) : ℤ) else 0)

/-- Pixel `(x, y)` of the output of `applyAdaptiveThresholding` in
utils/imagePreprocessing.ts: 255 if the original value exceeds
`neighbourhoodSum / count - C`, else 0. -/
def applyAdaptiveThresholding (g : ℕ → ℕ → ℕ) (w h blockSize : ℕ) (C : ℚ)
    (x y : ℕ) : ℕ :=
  let sum := integralBlockSum g w h blockSize x y
  let count := blockCount w h blockSize x y
  if (sum : ℚ) / (count : ℚ) - C < (g x y : ℚ) then 255 else 0

/-- Brute-force reference for the adaptive threshold, following the spec
words of claim C3: directly sum the clamped neighbourhood, take its mean,
set the pixel to 255 exactly when its value exceeds `mean - C`, else 0. -/
def bruteForceThreshold (g : ℕ → ℕ → ℕ) (w h blockSize : ℕ) (C : ℚ)
    (x y : ℕ) : ℕ :=
  let sum := blockSum g w h blockSize x y
  let count := blockCount w h blockSize x y
  if (sum : ℚ) / (count : ℚ) - C < (g x y : ℚ) then 255 else 0

/-- Total sum of all pixels of a `w × h` grayscale image. -/
def totalSum (g : ℕ → ℕ → ℕ) (w h : ℕ) : ℕ :=
  ∑ j ∈ Finset.range h, ∑ i ∈ Finset.range w, g i j

/-- Unwrapped rectangular prefix sum: all pixels `(i, j)` with `i < xc`,
`j < yc`. -/
def prefSum (g : ℕ → ℕ → ℕ) (xc yc : ℕ) : ℕ :=
  ∑ j ∈ Finset.range yc, ∑ i ∈ Finset.range xc, g i j

theorem prefSum_le_totalSum (g : ℕ → ℕ → ℕ) (w h xc yc : ℕ)
    (hx : xc ≤ w) (hy : yc ≤ h) : prefSum g xc yc ≤ totalSum g w h := by
  unfold prefSum totalSum
  calc ∑ j ∈ Finset.range yc, ∑ i ∈ Finset.range xc, g i j
      ≤ ∑ j ∈ Finset.range yc, ∑ i ∈ Finset.range w, g i j := by
        refine Finset.sum_le_sum fun j _ => ?_
        exact Finset.sum_le_sum_of_subset (Finset.range_subset.mpr hx)
    _ ≤ ∑ j ∈ Finset.range h, ∑ i ∈ Finset.range w, g i j :=
        Finset.sum_le_sum_of_subset (Finset.range_subset.mpr hy)

theorem rowSum_eq (g : ℕ → ℕ → ℕ) (y x : ℕ) :
    rowSum g y x = ∑ i ∈ Finset.range (x + 1), g i y := rfl

theorem prefSum_succ (g : ℕ → ℕ → ℕ) (xc y : ℕ) :
    prefSum g xc (y + 1) = prefSum g xc y + ∑ i ∈ Finset.range xc, g i y := by
  unfold prefSum
  exact Finset.sum_range_succ _ y

/-- When every prefix fits below 2^32, the wrapped integral image agrees
with the unwrapped prefix sums. -/
theorem integralImage_eq (g : ℕ → ℕ → ℕ) (w h : ℕ)
    (hfit : totalSum g w h < 2 ^ 32) (x y : ℕ) (hx : x < w) (hy : y < h) :
    integralImage g x y = prefSum g (x + 1) (y + 1) := by
  induction y with
  | zero =>
      have h1 : rowSum g 0 x = prefSum g (x + 1) 1 := by
        unfold rowSum prefSum
        rw [Finset.sum_range_one]
      have h2 : prefSum g (x + 1) 1 ≤ totalSum g w h :=
        prefSum_le_totalSum g w h (x + 1) 1 (by omega) (by omega)
      unfold integralImage
      rw [h1]
      exact Nat.mod_eq_of_lt (lt_of_le_of_lt h2 hfit)
  | succ n ih =>
      have hn : n < h := by omega
      have ihn := ih hn
      have hstep : rowSum g (n + 1) x + prefSum g (x + 1) (n + 1)
          = prefSum g (x + 1) (n + 2) := by
        rw [prefSum_succ g (x + 1) (n + 1), rowSum_eq]
        ring
      have hle : prefSum g (x + 1) (n + 2) ≤ totalSum g w h :=
        prefSum_le_totalSum g w h (x + 1) (n + 2) (by omega) (by omega)
      show (rowSum g (n + 1) x + integralImage g x n) % 2 ^ 32 = _
      rw [ihn, hstep]
      exact Nat.mod_eq_of_lt (lt_of_le_of_lt hle hfit)

/-- Inclusion–exclusion for prefix sums over ℤ. -/
theorem prefSum_sub (g : ℕ → ℕ → ℕ) (x1 x2 y1 y2 : ℕ)
    (hx : x1 ≤ x2) (hy : y1 ≤ y2) :
    (prefSum g (x2 + 1) (y2 + 1) : ℤ) - prefSum g x1 (y2 + 1)
      - prefSum g (x2 + 1) y1 + prefSum g x1 y1
      = ∑ j ∈ Finset.Icc y1 y2, ∑ i ∈ Finset.Icc x1 x2, (g i j : ℤ) := by
  have hcast : ∀ xc yc : ℕ, (prefSum g xc yc : ℤ)
      = ∑ j ∈ Finset.range yc, ∑ i ∈ Finset.range xc, (g i j : ℤ) := by
    intro xc yc
    unfold prefSum
    push_cast
    rfl
  have hrow : ∀ j : ℕ, ∑ i ∈ Finset.Icc x1 x2, (g i j : ℤ)
      = (∑ i ∈ Finset.range (x2 + 1), (g i j : ℤ))
        - ∑ i ∈ Finset.range x1, (g i j : ℤ) := by
    intro j
    rw [← Nat.Ico_succ_right]
    exact Finset.sum_Ico_eq_sub _ (by omega)
  have hcol : ∑ j ∈ Finset.Icc y1 y2, ((∑ i ∈ Finset.range (x2 + 1), (g i j : ℤ))
        - ∑ i ∈ Finset.range x1, (g i j : ℤ))
      = (∑ j ∈ Finset.range (y2 + 1), ((∑ i ∈ Finset.range (x2 + 1), (g i j : ℤ))
          - ∑ i ∈ Finset.range x1, (g i j : ℤ)))
        - ∑ j ∈ Finset.range y1, ((∑ i ∈ Finset.range (x2 + 1), (g i j : ℤ))
          - ∑ i ∈ Finset.range x1, (g i j : ℤ)) := by
    rw [← Nat.Ico_succ_right]
    exact Finset.sum_Ico_eq_sub _ (by omega)
  calc (prefSum g (x2 + 1) (y2 + 1) : ℤ) - prefSum g x1 (y2 + 1)
        - prefSum g (x2 + 1) y1 + prefSum g x1 y1
      = (∑ j ∈ Finset.range (y2 + 1), ((∑ i ∈ Finset.range (x2 + 1), (g i j : ℤ))
            - ∑ i ∈ Finset.range x1, (g i j : ℤ)))
          - ∑ j ∈ Finset.range y1, ((∑ i ∈ Finset.range (x2 + 1), (g i j : ℤ))
            - ∑ i ∈ Finset.range x1, (g i j : ℤ)) := by
        rw [hcast, hcast, hcast, hcast, Finset.sum_sub_distrib,
          Finset.sum_sub_distrib]
        ring
    _ = ∑ j ∈ Finset.Icc y1 y2, ((∑ i ∈ Finset.range (x2 + 1), (g i j : ℤ))
          - ∑ i ∈ Finset.range x1, (g i j : ℤ)) := hcol.symm
    _ = ∑ j ∈ Finset.Icc y1 y2, ∑ i ∈ Finset.Icc x1 x2, (g i j : ℤ) := by
        refine Finset.sum_congr rfl fun j _ => ?_
        rw [hrow]

/-- Without Uint32 overflow, the integral-image neighbourhood sum equals the
direct neighbourhood sum. -/
theorem integralBlockSum_eq (g : ℕ → ℕ → ℕ) (w h blockSize x y : ℕ)
    (hx : x < w) (hy : y < h) (hfit : totalSum g w h < 2 ^ 32) :
    integralBlockSum g w h blockSize x y = (blockSum g w h blockSize x y : ℤ) := by
  have hx1 : blockLo blockSize x ≤ x := Nat.sub_le _ _
  have hx2 : x ≤ blockHi w blockSize x := by
    unfold blockHi
    exact le_min (by omega) (by omega)
  have hy1 : blockLo blockSize y ≤ y := Nat.sub_le _ _
  have hy2 : y ≤ blockHi h blockSize y := by
    unfold blockHi
    exact le_min (by omega) (by omega)
  have hx2w : blockHi w blockSize x < w := by
    unfold blockHi
    omega
  have hy2h : blockHi h blockSize y < h := by
    unfold blockHi
    omega
  have key : ∀ xc yc : ℕ, xc ≤ blockHi w blockSize x + 1 →
      yc ≤ blockHi h blockSize y + 1 →
      (if 0 < xc ∧ 0 < yc then (integralImage g (xc - 1) (yc - 1) : ℤ) else 0)
        = (prefSum g xc yc : ℤ) := by
    intro xc yc hxc hyc
    by_cases hxc0 : 0 < xc
    · by_cases hyc0 : 0 < yc
      · rw [if_pos ⟨hxc0, hyc0⟩,
          integralImage_eq g w h hfit (xc - 1) (yc - 1) (by omega) (by omega)]
        congr 2 <;> omega
      · rw [if_neg (by tauto)]
        have : yc = 0 := by omega
        subst this
        simp [prefSum]
    · rw [if_neg (by tauto)]
      have : xc = 0 := by omega
      subst this
      simp [prefSum]
  unfold integralBlockSum blockSum
  dsimp only
  have e1 : (integralImage g (blockHi w blockSize x) (blockHi h blockSize y) : ℤ)
      = (prefSum g (blockHi w blockSize x + 1) (blockHi h blockSize y + 1) : ℤ) := by
    rw [integralImage_eq g w h hfit _ _ hx2w hy2h]
  have e2 : (if 0 < blockLo blockSize x
        then (integralImage g (blockLo blockSize x - 1) (blockHi h blockSize y) : ℤ)
        else 0)
      = (prefSum g (blockLo blockSize x) (blockHi h blockSize y + 1) : ℤ) := by
    by_cases hlo : 0 < blockLo blockSize x
    · rw [if_pos hlo, integralImage_eq g w h hfit _ _ (by omega) hy2h]
      congr 2
      omega
    · rw [if_neg hlo]
      have : blockLo blockSize x = 0 := by omega
      rw [this]
      simp [prefSum]
  have e3 : (if 0 < blockLo blockSize y
        then (integralImage g (blockHi w blockSize x) (blockLo blockSize y - 1) : ℤ)
        else 0)
      = (prefSum g (blockHi w blockSize x + 1) (blockLo blockSize y) : ℤ) := by
    by_cases hlo : 0 < blockLo blockSize y
    · rw [if_pos hlo, integralImage_eq g w h hfit _ _ hx2w (by omega)]
      congr 2
      omega
    · rw [if_neg hlo]
      have : blockLo blockSize y = 0 := by omega
      rw [this]
      simp [prefSum]
  have e4 := key (blockLo blockSize x) (blockLo blockSize y) (by omega) (by omega)
  rw [e1, e2, e3, e4]
  have := prefSum_sub g (blockLo blockSize x) (blockHi w blockSize x)
    (blockLo blockSize y) (blockHi h blockSize y) (by omega) (by omega)
  rw [this]
  push_cast
  rfl

/-- Shared bridge: at every in-bounds pixel and in the absence of Uint32
overflow, the integral-image adaptive threshold agrees with the brute-force
computation. -/
theorem adaptive_eq_brute (g : ℕ → ℕ → ℕ) (w h blockSize : ℕ) (C : ℚ)
    (x y : ℕ) (hx : x < w) (hy : y < h) (hfit : totalSum g w h < 2 ^ 32) :
    applyAdaptiveThresholding g w h blockSize C x y
      = bruteForceThreshold g w h blockSize C x y := by
  unfold applyAdaptiveThresholding bruteForceThreshold
  dsimp only
  rw [integralBlockSum_eq g w h blockSize x y hx hy hfit]
  push_cast
  rfl

/-- Closed form of the wrapped integral image of a constant-255 image. -/
theorem integralImage_const255 (x y : ℕ) :
    integralImage (fun _ _ => 255) x y = 255 * (x + 1) * (y + 1) % 2 ^ 32 := by
  induction y with
  | zero =>
      show rowSum (fun _ _ => 255) 0 x % 2 ^ 32 = _
      unfold rowSum
      rw [Finset.sum_const, Finset.card_range, smul_eq_mul]
      ring_nf
  | succ n ih =>
      show (rowSum (fun _ _ => 255) (n + 1) x
          + integralImage (fun _ _ => 255) x n) % 2 ^ 32 = _
      rw [ih]
      unfold rowSum
      rw [Finset.sum_const, Finset.card_range, smul_eq_mul]
      have h1 : (x + 1) * 255 + 255 * (x + 1) * (n + 1)
          = 255 * (x + 1) * (n + 1 + 1) := by ring
      have h2 : ((x + 1) * 255 + 255 * (x + 1) * (n + 1) % 2 ^ 32) % 2 ^ 32
          = ((x + 1) * 255 + 255 * (x + 1) * (n + 1)) % 2 ^ 32 := by omega
      rw [h2, h1]

/-- Claim C3 is false as stated: the integral image lives in a `Uint32Array`,
so on a 4107 × 4107 all-white image the stored prefix sums wrap modulo 2^32
and the integral-image threshold output differs from the brute-force output
at pixel (4105, 4105). -/
theorem c3_counterexample :
    applyAdaptiveThresholding (fun _ _ => 255) 4107 4107 3 7 4105 4105 = 0 ∧
    bruteForceThreshold (fun _ _ => 255) 4107 4107 3 7 4105 4105 = 255 := by
  constructor
  · simp only [applyAdaptiveThresholding, integralBlockSum, blockCount,
      blockLo, blockHi, integralImage_const255]
    norm_num
  · simp only [bruteForceThreshold, blockSum, blockCount, blockLo, blockHi,
      Finset.sum_const, Nat.card_Icc, smul_eq_mul]
    norm_num

/-- Claim C3, amended: provided the total pixel sum is below 2^32 (no
Uint32 overflow of the summed-area table), the integral-image adaptive
threshold equals the brute-force neighbourhood-mean computation at every
in-bounds pixel, for every block size and constant C. -/
theorem c3_amended (g : ℕ → ℕ → ℕ) (w h blockSize : ℕ) (C : ℚ) (x y : ℕ)
    (hx : x < w) (hy : y < h) (hfit : totalSum g w h < 2 ^ 32) :
    applyAdaptiveThresholding g w h blockSize C x y
      = bruteForceThreshold g w h blockSize C x y :=
  adaptive_eq_brute g w h blockSize C x y hx hy hfit

theorem c3_amended_witness :
    1 < 2 ∧ 1 < 2 ∧ totalSum (fun x y => x + 2 * y) 2 2 < 2 ^ 32 ∧
    applyAdaptiveThresholding (fun x y => x + 2 * y) 2 2 3 7 1 1
      = bruteForceThreshold (fun x y => x + 2 * y) 2 2 3 7 1 1 :=
  ⟨by norm_num, by norm_num, by decide,
    c3_amended (fun x y => x + 2 * y) 2 2 3 7 1 1 (by norm_num) (by norm_num)
      (by decide)⟩

/-- Claim C2 is false as stated: the all-black image (a valid pure
black/white image) is not reproduced with the default block size 21 and
C = 7: the single pixel 0 satisfies 0 > 0/1 - 7, so it becomes 255. -/
theorem c2_counterexample :
    applyAdaptiveThresholding (fun _ _ => 0) 1 1 21 7 0 0
      ≠ (fun _ _ => (0 : ℕ)) 0 0 := by
  have : applyAdaptiveThresholding (fun _ _ => 0) 1 1 21 7 0 0 = 255 := by
    simp [applyAdaptiveThresholding, integralBlockSum, integralImage, rowSum,
      blockCount, blockLo, blockHi]
  simp [this]

/-- Claim C2, amended: a pure black/white image is reproduced exactly by
`applyAdaptiveThresholding` provided C is positive, the summed-area table
does not overflow, and every pixel's clamped neighbourhood mean is at least
C (the all-black counterexample violates the last condition: its means are
0 < 7). -/
theorem c2_amended (g : ℕ → ℕ → ℕ) (w h blockSize : ℕ) (C : ℚ)
    (hbin : ∀ x y, x < w → y < h → g x y = 0 ∨ g x y = 255)
    (hC : 0 < C)
    (hfit : totalSum g w h < 2 ^ 32)
    (hmean : ∀ x y, x < w → y < h →
      C ≤ (blockSum g w h blockSize x y : ℚ) / (blockCount w h blockSize x y : ℚ))
    (x y : ℕ) (hx : x < w) (hy : y < h) :
    applyAdaptiveThresholding g w h blockSize C x y = g x y := by
  rw [adaptive_eq_brute g w h blockSize C x y hx hy hfit]
  have hcount : 0 < blockCount w h blockSize x y := by
    unfold blockCount
    positivity
  have hcountQ : (0 : ℚ) < (blockCount w h blockSize x y : ℚ) := by
    exact_mod_cast hcount
  have hx2w : blockHi w blockSize x < w := by
    unfold blockHi
    omega
  have hy2h : blockHi h blockSize y < h := by
    unfold blockHi
    omega
  have hsum_le : blockSum g w h blockSize x y ≤ 255 * blockCount w h blockSize x y := by
    unfold blockSum blockCount
    calc ∑ j ∈ Finset.Icc (blockLo blockSize y) (blockHi h blockSize y),
          ∑ i ∈ Finset.Icc (blockLo blockSize x) (blockHi w blockSize x), g i j
        ≤ ∑ j ∈ Finset.Icc (blockLo blockSize y) (blockHi h blockSize y),
          ∑ i ∈ Finset.Icc (blockLo blockSize x) (blockHi w blockSize x), 255 := by
          refine Finset.sum_le_sum fun j hj => Finset.sum_le_sum fun i hi => ?_
          have hiw : i < w := by
            have := (Finset.mem_Icc.mp hi).2
            omega
          have hjh : j < h := by
            have := (Finset.mem_Icc.mp hj).2
            omega
          rcases hbin i j hiw hjh with h0 | h255 <;> omega
      _ = 255 * ((blockHi w blockSize x - blockLo blockSize x + 1)
            * (blockHi h blockSize y - blockLo blockSize y + 1)) := by
          rw [Finset.sum_const, Finset.sum_const, Nat.card_Icc, Nat.card_Icc,
            smul_eq_mul, smul_eq_mul,
            show blockHi w blockSize x + 1 - blockLo blockSize x
              = blockHi w blockSize x - blockLo blockSize x + 1 from by
                unfold blockHi blockLo
                omega,
            show blockHi h blockSize y + 1 - blockLo blockSize y
              = blockHi h blockSize y - blockLo blockSize y + 1 from by
                unfold blockHi blockLo
                omega]
          ring
  have hmeanle : (blockSum g w h blockSize x y : ℚ)
      / (blockCount w h blockSize x y : ℚ) ≤ 255 := by
    rw [div_le_iff₀ hcountQ]
    exact_mod_cast hsum_le.trans_eq (by ring)
  unfold bruteForceThreshold
  dsimp only
  rcases hbin x y hx hy with h0 | h255
  · rw [h0, if_neg]
    have := hmean x y hx hy
    push_cast
    linarith
  · rw [h255, if_pos]
    push_cast
    linarith

theorem c2_amended_witness :
    (∀ x y : ℕ, x < 1 → y < 1 → (fun _ _ : ℕ => 255) x y = 0
        ∨ (fun _ _ : ℕ => 255) x y = 255) ∧
    (0 : ℚ) < 7 ∧ totalSum (fun _ _ => 255) 1 1 < 2 ^ 32 ∧
    applyAdaptiveThresholding (fun _ _ => 255) 1 1 21 7 0 0
      = (fun _ _ : ℕ => 255) 0 0 :=
  ⟨fun _ _ _ _ => Or.inr rfl, by norm_num, by decide,
    c2_amended (fun _ _ => 255) 1 1 21 7 (fun _ _ _ _ => Or.inr rfl)
      (by norm_num) (by decide)
      (fun x y hx hy => by
        interval_cases x
        interval_cases y
        simp [blockSum, blockCount, blockLo, blockHi]
        norm_num)
      0 0 (by norm_num) (by norm_num)⟩

/-! ## utils/imagePreprocessing.ts : CLAHE -/

/-- Value of bin `v` of the histogram of the tile with top-left corner
`(x_start, y_start)`: the number of tile pixels whose grayscale value is
`v` (`calculateTileHistogram`). -/
def calculateTileHistogram (g : ℕ → ℕ → ℕ) (x_start y_start tileWidth tileHeight v : ℕ) : ℕ :=
  ∑ j ∈ Finset.range tileHeight, ∑ i ∈ Finset.range tileWidth,
    if g (x_start + i) (y_start + j) = v then 1 else 0

/-- Clip every bin at `clipLimit * (numPixelsInTile / 256)`, accumulate the
clipped excess and redistribute it evenly over the 256 bins
(`clipAndRedistributeHistogram`). -/
def clipAndRedistributeHistogram (histogram : ℕ → ℚ) (clipLimit : ℚ)
    (numPixelsInTile : ℕ) : ℕ → ℚ :=
  let actualClipLimit := clipLimit * ((numPixelsInTile : ℚ) / 256)
  let clipped := fun i =>
    if actualClipLimit < histogram i then actualClipLimit else histogram i
  let excess := ∑ i ∈ Finset.range 256,
    (if actualClipLimit < histogram i then histogram i - actualClipLimit else 0)
  fun i => clipped i + excess / 256

/-- Cumulative distribution function of a histogram, normalised by the tile
pixel count (`calculateCDF`). -/
def calculateCDF (histogram : ℕ → ℚ) (numPixelsInTile : ℕ) (v : ℕ) : ℚ :=
  (∑ j ∈ Finset.range (v + 1), histogram j) / (numPixelsInTile : ℚ)

/-- Full CLAHE of utils/imagePreprocessing.ts.  `gridSize` is taken
positive: with `gridSize = 0` the JavaScript code faults before reaching the
degenerate-tile guard, while for positive `gridSize` ℕ division equals the
code's `Math.floor` division. -/
def applyCLAHE (g : ℕ → ℕ → ℕ) (w h : ℕ) (clipLimit : ℚ) (gridSize : ℕ) :
    ℕ → ℕ → ℕ :=
  let tileWidth := w / gridSize
  let tileHeight := h / gridSize
  if tileWidth = 0 ∨ tileHeight = 0 then g
  else
    let numPixelsInTile := tileWidth * tileHeight
    let cdfMap := fun gY gX =>
      calculateCDF
        (clipAndRedistributeHistogram
          (fun v => (calculateTileHistogram g (gX * tileWidth) (gY * tileHeight)
            tileWidth tileHeight v : ℚ))
          clipLimit numPixelsInTile)
        numPixelsInTile
    fun x y =>
      let originalValue := g x y
      let tileGridX := min (gridSize - 1) (x / tileWidth)
      let tileGridY := min (gridSize - 1) (y / tileHeight)
      let localX : ℚ := ((x % tileWidth : ℕ) : ℚ) / (tileWidth : ℚ)
      let localY : ℚ := ((y % tileHeight : ℕ) : ℚ) / (tileHeight : ℚ)
      let cdfTL := cdfMap tileGridY tileGridX
      let cdfTR := if tileGridX < gridSize - 1 then cdfMap tileGridY (tileGridX + 1) else cdfTL
      let cdfBL := if tileGridY < gridSize - 1 then cdfMap (tileGridY + 1) tileGridX else cdfTL
      let cdfBR := if tileGridY < gridSize - 1 ∧ tileGridX < gridSize - 1 then
          cdfMap (tileGridY + 1) (tileGridX + 1)
        else cdfTL
      let valTL := cdfTL originalValue * 255
      let valTR := cdfTR originalValue * 255
      let valBL := cdfBL originalValue * 255
      let valBR := cdfBR originalValue * 255
      let topInterp := valTL * (1 - localX) + valTR * localX
      let bottomInterp := valBL * (1 - localX) + valBR * localX
      let finalVal := topInterp * (1 - localY) + bottomInterp * localY
      u8 (max 0 (min 255 finalVal))

/-- Claim C8: when the tile dimensions floor to zero, CLAHE passes the
input buffer through unchanged. -/
theorem c8_clahe_bypass (g : ℕ → ℕ → ℕ) (w h : ℕ) (clipLimit : ℚ)
    (gridSize : ℕ) (hgs : 0 < gridSize)
    (hdeg : w / gridSize = 0 ∨ h / gridSize = 0) :
    applyCLAHE g w h clipLimit gridSize = g := by
  unfold applyCLAHE
  dsimp only
  exact if_pos hdeg

theorem c8_clahe_bypass_witness :
    0 < 8 ∧ ((1 : ℕ) / 8 = 0 ∨ (1 : ℕ) / 8 = 0) ∧
    applyCLAHE (fun _ _ => 7) 1 1 2 8 = (fun _ _ => 7) :=
  ⟨by norm_num, Or.inl (by norm_num),
    c8_clahe_bypass (fun _ _ => 7) 1 1 2 8 (by norm_num) (Or.inl (by norm_num))⟩

/-- Clipping and redistributing preserves the total histogram mass, with no
hypotheses at all. -/
theorem clipAndRedistribute_sum (histogram : ℕ → ℚ) (clipLimit : ℚ) (n : ℕ) :
    ∑ i ∈ Finset.range 256, clipAndRedistributeHistogram histogram clipLimit n i
      = ∑ i ∈ Finset.range 256, histogram i := by
  unfold clipAndRedistributeHistogram
  dsimp only
  rw [Finset.sum_add_distrib, Finset.sum_const, Finset.card_range, nsmul_eq_mul]
  push_cast
  have hdiv : (256 : ℚ) * ((∑ i ∈ Finset.range 256,
      (if clipLimit * ((n : ℚ) / 256) < histogram i
        then histogram i - clipLimit * ((n : ℚ) / 256) else 0)) / 256)
      = ∑ i ∈ Finset.range 256,
        (if clipLimit * ((n : ℚ) / 256) < histogram i
          then histogram i - clipLimit * ((n : ℚ) / 256) else 0) := by
    field_simp
  rw [hdiv, ← Finset.sum_add_distrib]
  refine Finset.sum_congr rfl fun i _ => ?_
  split_ifs <;> ring

/-- All redistributed bins are nonnegative as soon as the histogram is. -/
theorem clipAndRedistribute_nonneg (histogram : ℕ → ℚ) (clipLimit : ℚ) (n : ℕ)
    (hnn : ∀ i, 0 ≤ histogram i) (i : ℕ) :
    0 ≤ clipAndRedistributeHistogram histogram clipLimit n i := by
  unfold clipAndRedistributeHistogram
  dsimp only
  rcases le_or_lt 0 (clipLimit * ((n : ℚ) / 256)) with hacl | hacl
  · have h1 : 0 ≤ (if clipLimit * ((n : ℚ) / 256) < histogram i
        then clipLimit * ((n : ℚ) / 256) else histogram i) := by
      split_ifs
      · exact hacl
      · exact hnn i
    have h2 : 0 ≤ ∑ j ∈ Finset.range 256,
        (if clipLimit * ((n : ℚ) / 256) < histogram j
          then histogram j - clipLimit * ((n : ℚ) / 256) else 0) := by
      refine Finset.sum_nonneg fun j _ => ?_
      split_ifs with hj
      · linarith
      · exact le_rfl
    have h3 : 0 ≤ (∑ j ∈ Finset.range 256,
        (if clipLimit * ((n : ℚ) / 256) < histogram j
          then histogram j - clipLimit * ((n : ℚ) / 256) else 0)) / 256 :=
      div_nonneg h2 (by norm_num)
    linarith
  · have hall : ∀ j, clipLimit * ((n : ℚ) / 256) < histogram j :=
      fun j => lt_of_lt_of_le hacl (hnn j)
    have hclip : (if clipLimit * ((n : ℚ) / 256) < histogram i
        then clipLimit * ((n : ℚ) / 256) else histogram i)
        = clipLimit * ((n : ℚ) / 256) := if_pos (hall i)
    have hexc : ∑ j ∈ Finset.range 256,
        (if clipLimit * ((n : ℚ) / 256) < histogram j
          then histogram j - clipLimit * ((n : ℚ) / 256) else 0)
        = (∑ j ∈ Finset.range 256, histogram j)
          - 256 * (clipLimit * ((n : ℚ) / 256)) := by
      rw [Finset.sum_congr rfl fun j _ => if_pos (hall j),
        Finset.sum_sub_distrib, Finset.sum_const, Finset.card_range,
        nsmul_eq_mul]
      norm_num
    rw [hclip, hexc]
    have hs : 0 ≤ ∑ j ∈ Finset.range 256, histogram j :=
      Finset.sum_nonneg fun j _ => hnn j
    have : clipLimit * ((n : ℚ) / 256)
        + ((∑ j ∈ Finset.range 256, histogram j)
          - 256 * (clipLimit * ((n : ℚ) / 256))) / 256
        = (∑ j ∈ Finset.range 256, histogram j) / 256 := by
      field_simp
    rw [this]
    positivity

/-- Claim C9 is false as stated: for the (empty) all-zero 256-bin histogram
with tile pixel count equal to its total mass 0, the final CDF entry is not
1 (the model's division by zero yields 0; the JavaScript code computes
0/0 = NaN — in both semantics `cdf[255] = 1` fails). -/
theorem c9_counterexample :
    calculateCDF (clipAndRedistributeHistogram (fun _ => 0) 2 0) 0 255 ≠ 1 := by
  simp [calculateCDF, clipAndRedistributeHistogram]

/-- Claim C9, amended with positive total mass: clipping preserves the
total bin sum, the final CDF entry is 1, and every CLAHE-mapped value
`cdf[v] * 255` lies in [0, 255]. -/
theorem c9_amended (histogram : ℕ → ℚ) (clipLimit : ℚ) (n : ℕ)
    (hnn : ∀ i, 0 ≤ histogram i)
    (htot : (n : ℚ) = ∑ i ∈ Finset.range 256, histogram i)
    (hpos : 0 < n) :
    (∑ i ∈ Finset.range 256, clipAndRedistributeHistogram histogram clipLimit n i
      = ∑ i ∈ Finset.range 256, histogram i) ∧
    calculateCDF (clipAndRedistributeHistogram histogram clipLimit n) n 255 = 1 ∧
    ∀ v, v < 256 →
      0 ≤ calculateCDF (clipAndRedistributeHistogram histogram clipLimit n) n v * 255 ∧
      calculateCDF (clipAndRedistributeHistogram histogram clipLimit n) n v * 255 ≤ 255 := by
  have hsum := clipAndRedistribute_sum histogram clipLimit n
  have hnn2 := clipAndRedistribute_nonneg histogram clipLimit n hnn
  have hnQ : (0 : ℚ) < (n : ℚ) := by exact_mod_cast hpos
  have hcdf255 : calculateCDF (clipAndRedistributeHistogram histogram clipLimit n) n 255 = 1 := by
    unfold calculateCDF
    rw [hsum, ← htot]
    field_simp
  refine ⟨hsum, hcdf255, fun v hv => ?_⟩
  have hpref_nonneg : 0 ≤ ∑ j ∈ Finset.range (v + 1),
      clipAndRedistributeHistogram histogram clipLimit n j :=
    Finset.sum_nonneg fun j _ => hnn2 j
  have hpref_le : ∑ j ∈ Finset.range (v + 1),
      clipAndRedistributeHistogram histogram clipLimit n j ≤ (n : ℚ) := by
    rw [htot, ← hsum]
    refine Finset.sum_le_sum_of_subset_of_nonneg
      (Finset.range_subset.mpr (by omega)) fun j _ _ => hnn2 j
  constructor
  · unfold calculateCDF
    positivity
  · unfold calculateCDF
    rw [div_mul_eq_mul_div, div_le_iff₀ hnQ]
    nlinarith

theorem c9_amended_witness :
    (∀ i : ℕ, (0 : ℚ) ≤ (fun _ => (1 : ℚ)) i) ∧
    ((256 : ℕ) : ℚ) = (∑ i ∈ Finset.range 256, (fun _ => (1 : ℚ)) i) ∧
    0 < 256 ∧
    ((∑ i ∈ Finset.range 256,
        clipAndRedistributeHistogram (fun _ => 1) 2 256 i
        = ∑ i ∈ Finset.range 256, (fun _ => (1 : ℚ)) i) ∧
      calculateCDF (clipAndRedistributeHistogram (fun _ => 1) 2 256) 256 255 = 1 ∧
      ∀ v, v < 256 →
        0 ≤ calculateCDF (clipAndRedistributeHistogram (fun _ => 1) 2 256) 256 v * 255 ∧
        calculateCDF (clipAndRedistributeHistogram (fun _ => 1) 2 256) 256 v * 255 ≤ 255) :=
  ⟨fun _ => by norm_num, by simp, by norm_num,
    c9_amended (fun _ => 1) 2 256 (fun _ => by norm_num) (by simp) (by norm_num)⟩

/-! ## utils/imageAutoCrop.ts (src/unnamed/part_000) -/

/-- One RGBA pixel of an ImageData buffer. -/
structure Px where
  r : ℕ
  g : ℕ
  b : ℕ
  a : ℕ
deriving DecidableEq

/-- ITU-R BT.601 luminance `0.299 R + 0.587 G + 0.114 B`. -/
def lum601 (p : Px) : ℚ := 0.299 * p.r + 0.587 * p.g + 0.114 * p.b

/-- Grayscale pixel produced by `processImageForEdgeDetection`: luminance,
then the contrast stretch `1.5 * (lum - 128) + 128` clamped to [0, 255],
stored into a Uint8ClampedArray. -/
def processImageForEdgeDetection (d : ℕ → ℕ → Px) (x y : ℕ) : ℕ :=
  u8 (max 0 (min 255 (1.5 * (lum601 (d x y) - 128) + 128)))

/-- Sobel horizontal kernel. -/
def sobelXKer : ℕ → ℕ → ℤ
  | 0, 0 => -1
  | 0, 2 => 1
  | 1, 0 => -2
  | 1, 2 => 2
  | 2, 0 => -1
  | 2, 2 => 1
  | _, _ => 0

/-- Sobel vertical kernel. -/
def sobelYKer : ℕ → ℕ → ℤ
  | 0, 0 => -1
  | 0, 1 => -2
  | 0, 2 => -1
  | 2, 0 => 1
  | 2, 1 => 2
  | 2, 2 => 1
  | _, _ => 0

/-- Horizontal gradient `Gx` of the `sobel` function at `(x, y)`. -/
def sobelGx (g : ℕ → ℕ → ℕ) (x y : ℕ) : ℤ :=
  ∑ ky ∈ Finset.range 3, ∑ kx ∈ Finset.range 3,
    (g (x + kx - 1) (y + ky - 1) : ℤ) * sobelXKer ky kx

/-- Vertical gradient `Gy` of the `sobel` function at `(x, y)`. -/
def sobelGy (g : ℕ → ℕ → ℕ) (x y : ℕ) : ℤ :=
  ∑ ky ∈ Finset.range 3, ∑ kx ∈ Finset.range 3,
    (g (x + kx - 1) (y + ky - 1) : ℤ) * sobelYKer ky kx

/-- Squared gradient magnitude `Gx^2 + Gy^2` (a natural number; the code's
`magnitude` is its square root). -/
def magSq (g : ℕ → ℕ → ℕ) (x y : ℕ) : ℕ :=
  ((sobelGx g x y) ^ 2 + (sobelGy g x y) ^ 2).toNat

/-- The square of `maxMagnitude`: the maximum of `Gx^2 + Gy^2` over the
interior pixels (initial value 0, monotone maximum, exactly the code's
fold; comparing magnitudes equals comparing their squares). -/
def sobelMaxSq (g : ℕ → ℕ → ℕ) (w h : ℕ) : ℕ :=
  (Finset.Ico 1 (h - 1) ×ˢ Finset.Ico 1 (w - 1)).sup fun p => magSq g p.2 p.1

/-- Digit-by-digit integer square root, structurally recursive on a fuel
argument so that concrete instances evaluate inside the kernel (the
library's `Nat.sqrt` is defined by well-founded recursion and does not).
`isqrtAux_spec` proves it is the floor square root. -/
def isqrtAux : ℕ → ℕ → ℕ
  | 0, _ => 0
  | fuel + 1, n =>
      if n = 0 then 0
      else
        let r := isqrtAux fuel (n / 4)
        if n < (2 * r + 1) * (2 * r + 1) then 2 * r else 2 * r + 1

/-- Floor integer square root (see `isqrt_spec`). -/
def isqrt (n : ℕ) : ℕ := isqrtAux n n

theorem isqrtAux_spec : ∀ fuel n, n < 4 ^ fuel →
    isqrtAux fuel n * isqrtAux fuel n ≤ n ∧
    n < (isqrtAux fuel n + 1) * (isqrtAux fuel n + 1) := by
  intro fuel
  induction fuel with
  | zero =>
      intro n hn
      simp only [pow_zero, Nat.lt_one_iff] at hn
      subst hn
      simp [isqrtAux]
  | succ m ih =>
      intro n hn
      by_cases h0 : n = 0
      · subst h0
        simp [isqrtAux]
      · have hdiv : n / 4 < 4 ^ m := by
          have h4 : n < 4 ^ (m + 1) := hn
          rw [pow_succ] at h4
          omega
        obtain ⟨ih1, ih2⟩ := ih (n / 4) hdiv
        set r := isqrtAux m (n / 4) with hr
        have hunfold : isqrtAux (m + 1) n
            = if n < (2 * r + 1) * (2 * r + 1) then 2 * r else 2 * r + 1 := by
          conv_lhs => rw [isqrtAux]
          rw [if_neg h0]
        rw [hunfold]
        by_cases hlt : n < (2 * r + 1) * (2 * r + 1)
        · rw [if_pos hlt]
          constructor
          · calc 2 * r * (2 * r) = 4 * (r * r) := by ring
              _ ≤ 4 * (n / 4) := by omega
              _ ≤ n := by omega
          · exact hlt
        · rw [if_neg hlt]
          constructor
          · omega
          · have h5 : n / 4 + 1 ≤ (r + 1) * (r + 1) := ih2
            have h4 : n < 4 * ((r + 1) * (r + 1)) := by omega
            calc n < 4 * ((r + 1) * (r + 1)) := h4
              _ = (2 * r + 1 + 1) * (2 * r + 1 + 1) := by ring
  
theorem isqrt_spec (n : ℕ) :
    isqrt n * isqrt n ≤ n ∧ n < (isqrt n + 1) * (isqrt n + 1) :=
  isqrtAux_spec n n (Nat.lt_pow_self (by norm_num) n)

theorem isqrt_unique (n k : ℕ) (h1 : k * k ≤ n) (h2 : n < (k + 1) * (k + 1)) :
    isqrt n = k := by
  obtain ⟨s1, s2⟩ := isqrt_spec n
  rcases Nat.lt_trichotomy (isqrt n) k with hlt | heq | hgt
  · exfalso
    have : (isqrt n + 1) * (isqrt n + 1) ≤ k * k :=
      Nat.mul_le_mul (by omega) (by omega)
    omega
  · exact heq
  · exfalso
    have : (k + 1) * (k + 1) ≤ isqrt n * isqrt n :=
      Nat.mul_le_mul (by omega) (by omega)
    omega

/-- Rounding of `Math.sqrt n` for a natural `n` as stored by a
Uint8ClampedArray write: `round(sqrt n) = r` iff `n ≤ r^2 + r` where
`r = floor(sqrt n)`, because `sqrt n < r + 1/2 ↔ n < r^2 + r + 1/4`; a tie
`sqrt n = r + 1/2` is impossible for integer `n`. -/
def roundSqrt (n : ℕ) : ℕ :=
  let r := isqrt n
  if n ≤ r * r + r then r else r + 1

/-- Exact rounding (ties to even) of `t / sqrt M` for naturals `t`, `M`
with `M > 0`: `floor(t / sqrt M) = isqrt (t^2 / M)` and the comparison
of `t / sqrt M` with `f + 1/2` is the comparison of `4 t^2` with
`(2f+1)^2 M`.  This is the value a Uint8ClampedArray stores for the
JavaScript expression `(s / maxMagnitude) * 255` with `t = s * 255`,
`M = maxMagnitude^2`, before the upper clamp. -/
def roundDivSqrt (t M : ℕ) : ℕ :=
  let f := isqrt (t * t / M)
  if (2 * f + 1) ^ 2 * M < 4 * (t * t) then f + 1
  else if 4 * (t * t) = (2 * f + 1) ^ 2 * M then (if f % 2 = 0 then f else f + 1)
  else f

/-- First pass of `sobel`: interior pixels hold the clamped rounded
magnitude, borders stay 0. -/
def sobelPass1 (g : ℕ → ℕ → ℕ) (w h x y : ℕ) : ℕ :=
  if 1 ≤ x ∧ x + 1 < w ∧ 1 ≤ y ∧ y + 1 < h then
    min 255 (roundSqrt (magSq g x y))
  else 0

/-- The `sobel` function of utils/imageAutoCrop.ts: edge map, then, when the
maximum magnitude is positive, every stored entry `s` is replaced by the
clamped rounding of `(s / maxMagnitude) * 255`. -/
def sobel (g : ℕ → ℕ → ℕ) (w h x y : ℕ) : ℕ :=
  if sobelMaxSq g w h = 0 then sobelPass1 g w h x y
  else min 255 (roundDivSqrt (sobelPass1 g w h x y * 255) (sobelMaxSq g w h))

/-- Number of pixels of row `y` whose edge magnitude exceeds 50. -/
def edgeRowCount (e : ℕ → ℕ → ℕ) (w y : ℕ) : ℕ :=
  ∑ x ∈ Finset.range w, if 50 < e x y then 1 else 0

/-- Row density test `edgeCount / width > 0.1` of `findBoundingBox`. -/
def rowDense (e : ℕ → ℕ → ℕ) (w y : ℕ) : Bool :=
  decide ((1 : ℚ) / 10 < (edgeRowCount e w y : ℚ) / (w : ℚ))

/-- Number of pixels of column `x` whose edge magnitude exceeds 50. -/
def edgeColCount (e : ℕ → ℕ → ℕ) (h x : ℕ) : ℕ :=
  ∑ y ∈ Finset.range h, if 50 < e x y then 1 else 0

/-- Column density test `edgeCount / height > 0.1` of `findBoundingBox`. -/
def colDense (e : ℕ → ℕ → ℕ) (h x : ℕ) : Bool :=
  decide ((1 : ℚ) / 10 < (edgeColCount e h x : ℚ) / (h : ℚ))

/-- Upward scan with break: first index in `[i, i + k)` satisfying `p`. -/
def scanFirst (p : ℕ → Bool) : ℕ → ℕ → Option ℕ
  | _, 0 => none
  | i, k + 1 => if p i then some i else scanFirst p (i + 1) k

/-- Downward scan with break: last index below `n` satisfying `p`. -/
def scanLast (p : ℕ → Bool) : ℕ → Option ℕ
  | 0 => none
  | j + 1 => if p j then some j else scanLast p j

theorem scanFirst_eq_some (p : ℕ → Bool) (i k t : ℕ) :
    scanFirst p i k = some t ↔
      i ≤ t ∧ t < i + k ∧ p t = true ∧ ∀ j, i ≤ j → j < t → p j = false := by
  induction k generalizing i with
  | zero =>
      simp only [scanFirst]
      constructor
      · intro hcontra
        cases hcontra
      · rintro ⟨h1, h2, -, -⟩
        omega
  | succ n ih =>
      simp only [scanFirst]
      by_cases hp : p i
      · rw [if_pos hp]
        constructor
        · rintro ⟨rfl⟩
          exact ⟨le_rfl, by omega, hp, fun j h1 h2 => absurd (lt_of_le_of_lt h1 h2) (lt_irrefl _)⟩
        · rintro ⟨h1, h2, h3, h4⟩
          by_cases hit : i = t
          · rw [hit]
          · have := h4 i le_rfl (by omega)
            rw [hp] at this
            cases this
      · rw [if_neg hp]
        rw [ih (i + 1)]
        constructor
        · rintro ⟨h1, h2, h3, h4⟩
          refine ⟨by omega, by omega, h3, fun j hj1 hj2 => ?_⟩
          by_cases hji : j = i
          · rw [hji]
            exact Bool.eq_false_iff.mpr hp
          · exact h4 j (by omega) hj2
        · rintro ⟨h1, h2, h3, h4⟩
          have hit : i ≠ t := by
            intro heq
            rw [heq] at hp
            exact hp h3
          exact ⟨by omega, by omega, h3, fun j hj1 hj2 => h4 j (by omega) hj2⟩

theorem scanFirst_eq_none (p : ℕ → Bool) (i k : ℕ) :
    scanFirst p i k = none ↔ ∀ j, i ≤ j → j < i + k → p j = false := by
  induction k generalizing i with
  | zero =>
      simp only [scanFirst]
      exact ⟨fun _ j h1 h2 => absurd h2 (by omega), fun _ => trivial⟩
  | succ n ih =>
      simp only [scanFirst]
      by_cases hp : p i
      · rw [if_pos hp]
        constructor
        · intro hcontra
          cases hcontra
        · intro hall
          have := hall i le_rfl (by omega)
          rw [hp] at this
          cases this
      · rw [if_neg hp, ih (i + 1)]
        constructor
        · intro hall j hj1 hj2
          by_cases hji : j = i
          · rw [hji]
            exact Bool.eq_false_iff.mpr hp
          · exact hall j (by omega) (by omega)
        · intro hall j hj1 hj2
          exact hall j (by omega) (by omega)

theorem scanLast_eq_some (p : ℕ → Bool) (n t : ℕ) :
    scanLast p n = some t ↔
      t < n ∧ p t = true ∧ ∀ j, t < j → j < n → p j = false := by
  induction n with
  | zero =>
      simp only [scanLast]
      constructor
      · intro hcontra
        cases hcontra
      · rintro ⟨h1, -, -⟩
        omega
  | succ m ih =>
      simp only [scanLast]
      by_cases hp : p m
      · rw [if_pos hp]
        constructor
        · rintro ⟨rfl⟩
          exact ⟨by omega, hp, fun j h1 h2 => by omega⟩
        · rintro ⟨h1, h2, h3⟩
          by_cases hmt : m = t
          · rw [hmt]
          · have := h3 m (by omega) (by omega)
            rw [hp] at this
            cases this
      · rw [if_neg hp, ih]
        constructor
        · rintro ⟨h1, h2, h3⟩
          have hmt : t ≠ m := by
            intro heq
            rw [heq] at h2
            exact hp h2
          refine ⟨by omega, h2, fun j hj1 hj2 => ?_⟩
          by_cases hjm : j = m
          · rw [hjm]
            exact Bool.eq_false_iff.mpr hp
          · exact h3 j hj1 (by omega)
        · rintro ⟨h1, h2, h3⟩
          have hmt : t ≠ m := by
            intro heq
            rw [heq] at h2
            exact hp h2
          exact ⟨by omega, h2, fun j hj1 hj2 => h3 j hj1 (by omega)⟩

theorem scanLast_eq_none (p : ℕ → Bool) (n : ℕ) :
    scanLast p n = none ↔ ∀ j, j < n → p j = false := by
  induction n with
  | zero =>
      simp only [scanLast]
      exact ⟨fun _ j h => absurd h (by omega), fun _ => trivial⟩
  | succ m ih =>
      simp only [scanLast]
      by_cases hp : p m
      · rw [if_pos hp]
        constructor
        · intro hcontra
          cases hcontra
        · intro hall
          have := hall m (by omega)
          rw [hp] at this
          cases this
      · rw [if_neg hp, ih]
        constructor
        · intro hall j hj
          by_cases hjm : j = m
          · rw [hjm]
            exact Bool.eq_false_iff.mpr hp
          · exact hall j (by omega)
        · intro hall j hj
          exact hall j (by omega)

/-- Bounding box found by `findBoundingBox` (all fields natural numbers). -/
structure BBox where
  x : ℕ
  y : ℕ
  width : ℕ
  height : ℕ
deriving DecidableEq

/-- The `findBoundingBox` function: four directional scans, failure when a
bound is missing or `right ≤ left` or `bottom ≤ top`. -/
def findBoundingBox (e : ℕ → ℕ → ℕ) (w h : ℕ) : Option BBox :=
  match scanFirst (rowDense e w) 0 h, scanLast (rowDense e w) h,
      scanFirst (colDense e h) 0 w, scanLast (colDense e h) w with
  | some top, some bottom, some left, some right =>
      if right ≤ left ∨ bottom ≤ top then none
      else some ⟨left, top, right - left, bottom - top⟩
  | none, _, _, _ => none
  | _, none, _, _ => none
  | _, _, none, _ => none
  | _, _, _, none => none

/-- Index of the first dense row: `t` is below `h`, dense, and all earlier
rows are not dense. -/
def firstDenseRow (e : ℕ → ℕ → ℕ) (w h t : ℕ) : Prop :=
  t < h ∧ rowDense e w t = true ∧ ∀ y, y < t → rowDense e w y = false

/-- Index of the last dense row. -/
def lastDenseRow (e : ℕ → ℕ → ℕ) (w h b : ℕ) : Prop :=
  b < h ∧ rowDense e w b = true ∧ ∀ y, b < y → y < h → rowDense e w y = false

/-- Index of the first dense column. -/
def firstDenseCol (e : ℕ → ℕ → ℕ) (w h l : ℕ) : Prop :=
  l < w ∧ colDense e h l = true ∧ ∀ x, x < l → colDense e h x = false

/-- Index of the last dense column. -/
def lastDenseCol (e : ℕ → ℕ → ℕ) (w h r : ℕ) : Prop :=
  r < w ∧ colDense e h r = true ∧ ∀ x, r < x → x < w → colDense e h x = false

theorem findBoundingBox_none_of_top (e : ℕ → ℕ → ℕ) (w h : ℕ)
    (hT : scanFirst (rowDense e w) 0 h = none) : findBoundingBox e w h = none := by
  unfold findBoundingBox
  split
  case h_1 _ _ _ _ top bottom left right heqT heqB heqL heqR =>
    rw [hT] at heqT
    cases heqT
  all_goals rfl

theorem findBoundingBox_none_of_bottom (e : ℕ → ℕ → ℕ) (w h : ℕ)
    (hB : scanLast (rowDense e w) h = none) : findBoundingBox e w h = none := by
  unfold findBoundingBox
  split
  case h_1 _ _ _ _ top bottom left right heqT heqB heqL heqR =>
    rw [hB] at heqB
    cases heqB
  all_goals rfl

theorem findBoundingBox_none_of_left (e : ℕ → ℕ → ℕ) (w h : ℕ)
    (hL : scanFirst (colDense e h) 0 w = none) : findBoundingBox e w h = none := by
  unfold findBoundingBox
  split
  case h_1 _ _ _ _ top bottom left right heqT heqB heqL heqR =>
    rw [hL] at heqL
    cases heqL
  all_goals rfl

theorem findBoundingBox_none_of_right (e : ℕ → ℕ → ℕ) (w h : ℕ)
    (hR : scanLast (colDense e h) w = none) : findBoundingBox e w h = none := by
  unfold findBoundingBox
  split
  case h_1 _ _ _ _ top bottom left right heqT heqB heqL heqR =>
    rw [hR] at heqR
    cases heqR
  all_goals rfl

theorem findBoundingBox_none_of_ord (e : ℕ → ℕ → ℕ) (w h t b l r : ℕ)
    (hT : scanFirst (rowDense e w) 0 h = some t)
    (hB : scanLast (rowDense e w) h = some b)
    (hL : scanFirst (colDense e h) 0 w = some l)
    (hR : scanLast (colDense e h) w = some r)
    (hord : r ≤ l ∨ b ≤ t) : findBoundingBox e w h = none := by
  unfold findBoundingBox
  split
  case h_1 _ _ _ _ top bottom left right heqT heqB heqL heqR =>
    rw [hT] at heqT
    rw [hB] at heqB
    rw [hL] at heqL
    rw [hR] at heqR
    injection heqT with heqT
    injection heqB with heqB
    injection heqL with heqL
    injection heqR with heqR
    subst heqT
    subst heqB
    subst heqL
    subst heqR
    rw [if_pos hord]
  all_goals rfl

theorem findBoundingBox_some_of (e : ℕ → ℕ → ℕ) (w h t b l r : ℕ)
    (hT : scanFirst (rowDense e w) 0 h = some t)
    (hB : scanLast (rowDense e w) h = some b)
    (hL : scanFirst (colDense e h) 0 w = some l)
    (hR : scanLast (colDense e h) w = some r)
    (hord : ¬(r ≤ l ∨ b ≤ t)) :
    findBoundingBox e w h = some ⟨l, t, r - l, b - t⟩ := by
  unfold findBoundingBox
  split
  case h_1 _ _ _ _ top bottom left right heqT heqB heqL heqR =>
    rw [hT] at heqT
    rw [hB] at heqB
    rw [hL] at heqL
    rw [hR] at heqR
    injection heqT with heqT
    injection heqB with heqB
    injection heqL with heqL
    injection heqR with heqR
    subst heqT
    subst heqB
    subst heqL
    subst heqR
    rw [if_neg hord]
  case h_2 _ _ _ _ heqT =>
    rw [hT] at heqT
    cases heqT
  case h_3 _ _ _ _ heqB _ =>
    rw [hB] at heqB
    cases heqB
  case h_4 _ _ _ _ heqL _ _ =>
    rw [hL] at heqL
    cases heqL
  case h_5 _ _ _ _ heqR _ _ _ =>
    rw [hR] at heqR
    cases heqR

theorem findBoundingBox_some_iff (e : ℕ → ℕ → ℕ) (w h : ℕ) (bb : BBox) :
    findBoundingBox e w h = some bb ↔
      ∃ t b l r, scanFirst (rowDense e w) 0 h = some t ∧
        scanLast (rowDense e w) h = some b ∧
        scanFirst (colDense e h) 0 w = some l ∧
        scanLast (colDense e h) w = some r ∧
        l < r ∧ t < b ∧ bb = ⟨l, t, r - l, b - t⟩ := by
  constructor
  · intro hsome
    unfold findBoundingBox at hsome
    split at hsome
    case h_1 _ _ _ _ top bottom left right heqT heqB heqL heqR =>
      by_cases hord : right ≤ left ∨ bottom ≤ top
      · rw [if_pos hord] at hsome
        cases hsome
      · rw [if_neg hord] at hsome
        injection hsome with hsome
        exact ⟨top, bottom, left, right, heqT, heqB, heqL, heqR,
          by omega, by omega, hsome.symm⟩
    all_goals cases hsome
  · rintro ⟨t, b, l, r, hT, hB, hL, hR, hlr, htb, rfl⟩
    exact findBoundingBox_some_of e w h t b l r hT hB hL hR (by omega)

theorem findBoundingBox_none_iff (e : ℕ → ℕ → ℕ) (w h : ℕ) :
    findBoundingBox e w h = none ↔
      scanFirst (rowDense e w) 0 h = none ∨
      scanLast (rowDense e w) h = none ∨
      scanFirst (colDense e h) 0 w = none ∨
      scanLast (colDense e h) w = none ∨
      (∃ t b l r, scanFirst (rowDense e w) 0 h = some t ∧
        scanLast (rowDense e w) h = some b ∧
        scanFirst (colDense e h) 0 w = some l ∧
        scanLast (colDense e h) w = some r ∧ (r ≤ l ∨ b ≤ t)) := by
  constructor
  · intro hnone
    unfold findBoundingBox at hnone
    split at hnone
    case h_1 _ _ _ _ top bottom left right heqT heqB heqL heqR =>
      by_cases hord : right ≤ left ∨ bottom ≤ top
      · exact Or.inr (Or.inr (Or.inr (Or.inr
          ⟨top, bottom, left, right, heqT, heqB, heqL, heqR, hord⟩)))
      · rw [if_neg hord] at hnone
        cases hnone
    case h_2 _ _ _ _ heqT => exact Or.inl heqT
    case h_3 _ _ _ _ heqB _ => exact Or.inr (Or.inl heqB)
    case h_4 _ _ _ _ heqL _ _ => exact Or.inr (Or.inr (Or.inl heqL))
    case h_5 _ _ _ _ heqR _ _ _ => exact Or.inr (Or.inr (Or.inr (Or.inl heqR)))
  · rintro (hc | hc | hc | hc | ⟨t, b, l, r, hT, hB, hL, hR, hord⟩)
    · exact findBoundingBox_none_of_top e w h hc
    · exact findBoundingBox_none_of_bottom e w h hc
    · exact findBoundingBox_none_of_left e w h hc
    · exact findBoundingBox_none_of_right e w h hc
    · exact findBoundingBox_none_of_ord e w h t b l r hT hB hL hR hord

/-- Claim C6: `findBoundingBox` returns none exactly when one of the four
directional scans finds no dense line, or when the found bounds satisfy
`right ≤ left` or `bottom ≤ top`; otherwise it returns the box
`{x: left, y: top, width: right - left, height: bottom - top}` built from
the first qualifying line of each scan direction (a line qualifies when its
fraction of pixels of edge magnitude above 50 exceeds 0.10). -/
theorem c6_findBoundingBox_characterization (e : ℕ → ℕ → ℕ) (w h : ℕ) :
    (findBoundingBox e w h = none ↔
      (∀ y, y < h → rowDense e w y = false) ∨
      (∀ x, x < w → colDense e h x = false) ∨
      (∃ t b l r, firstDenseRow e w h t ∧ lastDenseRow e w h b ∧
        firstDenseCol e w h l ∧ lastDenseCol e w h r ∧ (r ≤ l ∨ b ≤ t))) ∧
    ∀ bb, findBoundingBox e w h = some bb →
      ∃ t b l r, firstDenseRow e w h t ∧ lastDenseRow e w h b ∧
        firstDenseCol e w h l ∧ lastDenseCol e w h r ∧ l < r ∧ t < b ∧
        bb = ⟨l, t, r - l, b - t⟩ := by
  have hTs : ∀ t, scanFirst (rowDense e w) 0 h = some t ↔ firstDenseRow e w h t := by
    intro t
    rw [scanFirst_eq_some]
    unfold firstDenseRow
    constructor
    · rintro ⟨-, h2, h3, h4⟩
      exact ⟨by omega, h3, fun y hy => h4 y (by omega) hy⟩
    · rintro ⟨h1, h2, h3⟩
      exact ⟨by omega, by omega, h2, fun j _ hj => h3 j hj⟩
  have hBs : ∀ b, scanLast (rowDense e w) h = some b ↔ lastDenseRow e w h b := by
    intro b
    rw [scanLast_eq_some]
    unfold lastDenseRow
    tauto
  have hLs : ∀ l, scanFirst (colDense e h) 0 w = some l ↔ firstDenseCol e w h l := by
    intro l
    rw [scanFirst_eq_some]
    unfold firstDenseCol
    constructor
    · rintro ⟨-, h2, h3, h4⟩
      exact ⟨by omega, h3, fun x hx => h4 x (by omega) hx⟩
    · rintro ⟨h1, h2, h3⟩
      exact ⟨by omega, by omega, h2, fun j _ hj => h3 j hj⟩
  have hRs : ∀ r, scanLast (colDense e h) w = some r ↔ lastDenseCol e w h r := by
    intro r
    rw [scanLast_eq_some]
    unfold lastDenseCol
    tauto
  constructor
  · rw [findBoundingBox_none_iff]
    constructor
    · rintro (hc | hc | hc | hc | ⟨t, b, l, r, h1, h2, h3, h4, h5⟩)
      · left
        intro y hy
        exact (scanFirst_eq_none _ 0 h).mp hc y (by omega) (by omega)
      · left
        exact (scanLast_eq_none _ h).mp hc
      · right
        left
        intro x hx
        exact (scanFirst_eq_none _ 0 w).mp hc x (by omega) (by omega)
      · right
        left
        exact (scanLast_eq_none _ w).mp hc
      · right
        right
        exact ⟨t, b, l, r, (hTs t).mp h1, (hBs b).mp h2, (hLs l).mp h3,
          (hRs r).mp h4, h5⟩
    · rintro (hc | hc | ⟨t, b, l, r, h1, h2, h3, h4, h5⟩)
      · left
        rw [scanFirst_eq_none]
        intro j _ hj
        exact hc j (by omega)
      · right
        right
        left
        rw [scanFirst_eq_none]
        intro j _ hj
        exact hc j (by omega)
      · right
        right
        right
        right
        exact ⟨t, b, l, r, (hTs t).mpr h1, (hBs b).mpr h2, (hLs l).mpr h3,
          (hRs r).mpr h4, h5⟩
  · intro bb hbb
    obtain ⟨t, b, l, r, h1, h2, h3, h4, h5, h6, h7⟩ :=
      (findBoundingBox_some_iff e w h bb).mp hbb
    exact ⟨t, b, l, r, (hTs t).mp h1, (hBs b).mp h2, (hLs l).mp h3,
      (hRs r).mp h4, h5, h6, h7⟩

theorem c6_witness :
    findBoundingBox (fun _ _ => 255) 3 3 = some ⟨0, 0, 2, 2⟩ ∧
    ∃ t b l r, firstDenseRow (fun _ _ => 255) 3 3 t ∧
      lastDenseRow (fun _ _ => 255) 3 3 b ∧
      firstDenseCol (fun _ _ => 255) 3 3 l ∧
      lastDenseCol (fun _ _ => 255) 3 3 r ∧ l < r ∧ t < b ∧
      (⟨0, 0, 2, 2⟩ : BBox) = ⟨l, t, r - l, b - t⟩ := by
  have hdense : ∀ y, rowDense (fun _ _ => 255) 3 y = true := by
    intro y
    have hc : edgeRowCount (fun _ _ => 255) 3 y = 3 := by
      simp [edgeRowCount, Finset.sum_range_succ]
    simp only [rowDense, hc, decide_eq_true_eq]
    norm_num
  have hdenseC : ∀ x, colDense (fun _ _ => 255) 3 x = true := by
    intro x
    have hc : edgeColCount (fun _ _ => 255) 3 x = 3 := by
      simp [edgeColCount, Finset.sum_range_succ]
    simp only [colDense, hc, decide_eq_true_eq]
    norm_num
  have hT : scanFirst (rowDense (fun _ _ => 255) 3) 0 3 = some 0 := by
    simp [scanFirst, hdense 0]
  have hB : scanLast (rowDense (fun _ _ => 255) 3) 3 = some 2 := by
    simp [scanLast, hdense 2]
  have hL : scanFirst (colDense (fun _ _ => 255) 3) 0 3 = some 0 := by
    simp [scanFirst, hdenseC 0]
  have hR : scanLast (colDense (fun _ _ => 255) 3) 3 = some 2 := by
    simp [scanLast, hdenseC 2]
  have hsome : findBoundingBox (fun _ _ => 255) 3 3 = some ⟨0, 0, 2, 2⟩ :=
    findBoundingBox_some_of (fun _ _ => 255) 3 3 0 2 0 2 hT hB hL hR (by omega)
  exact ⟨hsome,
    (c6_findBoundingBox_characterization (fun _ _ => 255) 3 3).2 ⟨0, 0, 2, 2⟩ hsome⟩

/-- Interior magnitudes never exceed the tracked maximum. -/
theorem magSq_le_sobelMaxSq (g : ℕ → ℕ → ℕ) (w h x y : ℕ)
    (hx1 : 1 ≤ x) (hx2 : x + 1 < w) (hy1 : 1 ≤ y) (hy2 : y + 1 < h) :
    magSq g x y ≤ sobelMaxSq g w h := by
  have hmem : (y, x) ∈ Finset.Ico 1 (h - 1) ×ˢ Finset.Ico 1 (w - 1) := by
    rw [Finset.mem_product, Finset.mem_Ico, Finset.mem_Ico]
    omega
  exact @Finset.le_sup ℕ (ℕ × ℕ) _ _
    (Finset.Ico 1 (h - 1) ×ˢ Finset.Ico 1 (w - 1))
    (fun p => magSq g p.2 p.1) (y, x) hmem

/-- Claim C7 is false as stated: the rescale divides the *stored* (rounded,
clamped) magnitude by the *unclamped* maximum.  On a 3 × 3 image whose only
nonzero pixel is `(2, 0) = 1`, the unique interior pixel `(1, 1)` has
`Gx = 1`, `Gy = -1`, so it holds the maximum magnitude sqrt 2, its stored
value is `round(sqrt 2) = 1`, and the rescale maps it to
`round(255 / sqrt 2) = 180`, not 255. -/
theorem c7_counterexample :
    sobelMaxSq (fun x y => if x = 2 ∧ y = 0 then 1 else 0) 3 3 = 2 ∧
    magSq (fun x y => if x = 2 ∧ y = 0 then 1 else 0) 1 1 = 2 ∧
    sobel (fun x y => if x = 2 ∧ y = 0 then 1 else 0) 3 3 1 1 = 180 ∧
    sobel (fun x y => if x = 2 ∧ y = 0 then 1 else 0) 3 3 1 1 ≠ 255 := by
  refine ⟨by decide, by decide, by decide, by decide⟩

/-- Claim C7, amended: when the maximum observed magnitude is 0 the map is
returned all zeros with no division; and an interior pixel attaining the
maximum maps to 255 provided that maximum magnitude is an integer `m` with
`0 < m ≤ 255` (i.e. the maximum squared magnitude is a perfect square
`m * m`).  In general the stored value is rounded and clamped before the
division by the unclamped maximum, so the maximal pixel can map below
255. -/
theorem c7_amended (g : ℕ → ℕ → ℕ) (w h : ℕ) :
    (sobelMaxSq g w h = 0 → ∀ x y, sobel g w h x y = 0) ∧
    (∀ m x y, 0 < m → m ≤ 255 → sobelMaxSq g w h = m * m →
      magSq g x y = m * m → 1 ≤ x → x + 1 < w → 1 ≤ y → y + 1 < h →
      sobel g w h x y = 255) := by
  constructor
  · intro h0 x y
    unfold sobel
    rw [if_pos h0]
    unfold sobelPass1
    split
    · rename_i hint
      obtain ⟨hx1, hx2, hy1, hy2⟩ := hint
      have hle := magSq_le_sobelMaxSq g w h x y hx1 hx2 hy1 hy2
      rw [h0] at hle
      have hz : magSq g x y = 0 := by omega
      rw [hz]
      decide
    · rfl
  · intro m x y hm hm255 hmax hmag hx1 hx2 hy1 hy2
    have hmm : 0 < m * m := by positivity
    unfold sobel
    rw [if_neg (by omega)]
    have hpass : sobelPass1 g w h x y = m := by
      unfold sobelPass1
      rw [if_pos ⟨hx1, hx2, hy1, hy2⟩, hmag]
      have hisq : isqrt (m * m) = m :=
        isqrt_unique (m * m) m le_rfl (by nlinarith)
      unfold roundSqrt
      rw [hisq, if_pos (by omega)]
      omega
    rw [hpass, hmax]
    have hdivEq : m * 255 * (m * 255) / (m * m) = 65025 := by
      rw [show m * 255 * (m * 255) = m * m * 65025 from by ring]
      exact Nat.mul_div_cancel_left _ hmm
    unfold roundDivSqrt
    rw [hdivEq, show isqrt 65025 = 255 from by decide]
    rw [if_neg (by nlinarith), if_neg (by nlinarith)]
    omega

theorem c7_amended_witness :
    (sobelMaxSq (fun _ _ => 0) 3 3 = 0 ∧
      sobel (fun _ _ => 0) 3 3 1 1 = 0) ∧
    (0 < 2 ∧ 2 ≤ 255 ∧
      sobelMaxSq (fun x y => if x = 1 ∧ y = 2 then 1 else 0) 3 3 = 2 * 2 ∧
      magSq (fun x y => if x = 1 ∧ y = 2 then 1 else 0) 1 1 = 2 * 2 ∧
      sobel (fun x y => if x = 1 ∧ y = 2 then 1 else 0) 3 3 1 1 = 255) :=
  ⟨⟨by decide, (c7_amended (fun _ _ => 0) 3 3).1 (by decide) 1 1⟩,
    ⟨by decide, by decide, by decide, by decide,
      (c7_amended (fun x y => if x = 1 ∧ y = 2 then 1 else 0) 3 3).2 2 1 1
        (by decide) (by decide) (by decide) (by decide) (by decide) (by decide)
        (by decide) (by decide)⟩⟩

/-! ## suggestCrop (utils/imageAutoCrop.ts) -/

/-- Crop rectangle suggested by `suggestCrop`, in original-image pixel
coordinates (the refined values pass through `Math.round`, hence ℤ). -/
structure CropSuggestion where
  x : ℤ
  y : ℤ
  width : ℤ
  height : ℤ
deriving DecidableEq

/-- Fixed working width of the downscale step. -/
def DOWNSCALE_WIDTH : ℕ := 400

/-- Height of the downscaled canvas:
`Math.round(originalHeight / (originalWidth / 400))`. -/
def downscaleHeight (OW OH : ℕ) : ℕ :=
  (jround ((OH : ℚ) / ((OW : ℚ) / (DOWNSCALE_WIDTH : ℚ)))).toNat

/-- Refinement step of `suggestCrop` on a found bounding box: 2% inward
padding on each axis, rescale to original coordinates by
`scale = OW / 400` with rounding, then the [10%, 98%] area sanity check. -/
def refineBox (OW OH : ℕ) (box : BBox) : Option CropSuggestion :=
  let scale : ℚ := (OW : ℚ) / (DOWNSCALE_WIDTH : ℚ)
  let paddingX : ℚ := (box.width : ℚ) * 0.02
  let paddingY : ℚ := (box.height : ℚ) * 0.02
  let bx : ℚ := (box.x : ℚ) + paddingX
  let byv : ℚ := (box.y : ℚ) + paddingY
  let bw : ℚ := (box.width : ℚ) - paddingX * 2
  let bh : ℚ := (box.height : ℚ) - paddingY * 2
  let finalX := jround (bx * scale)
  let finalY := jround (byv * scale)
  let finalW := jround (bw * scale)
  let finalH := jround (bh * scale)
  let minArea : ℚ := ((OW * OH : ℕ) : ℚ) * 0.1
  let maxArea : ℚ := ((OW * OH : ℕ) : ℚ) * 0.98
  let cropArea : ℚ := ((finalW * finalH : ℤ) : ℚ)
  if cropArea < minArea ∨ maxArea < cropArea then none
  else some ⟨finalX, finalY, finalW, finalH⟩

/-- Pure core of `suggestCrop`, starting from the downscaled RGBA data `d`
(the canvas `drawImage` resampling that produces `d` is a browser primitive,
so `d` is a parameter): grayscale + contrast stretch, Sobel, bounding-box
scan, then `refineBox`. -/
def suggestCropCore (d : ℕ → ℕ → Px) (OW OH : ℕ) : Option CropSuggestion :=
  let w := DOWNSCALE_WIDTH
  let h := downscaleHeight OW OH
  let gray := processImageForEdgeDetection d
  let edge := sobel gray w h
  match findBoundingBox edge w h with
  | none => none
  | some box => refineBox OW OH box

theorem suggestCropCore_eq_refine (d : ℕ → ℕ → Px) (OW OH : ℕ) (box : BBox)
    (hfb : findBoundingBox
        (sobel (processImageForEdgeDetection d) DOWNSCALE_WIDTH
          (downscaleHeight OW OH))
        DOWNSCALE_WIDTH (downscaleHeight OW OH) = some box) :
    suggestCropCore d OW OH = refineBox OW OH box := by
  unfold suggestCropCore
  dsimp only
  rw [hfb]

/-- Outcome of a JavaScript promise: resolved with a value, or rejected. -/
inductive PromiseResult (α : Type) where
  | resolved (val : α)
  | rejected (msg : String)
deriving DecidableEq

/-- The `suggestCrop` entry point.  Its executor never calls `reject`: an
unavailable 2d context resolves with null, and the whole body sits in a
try/catch whose catch resolves with null; the fallible external canvas
steps (createImageBitmap / drawImage / getImageData) are modelled by the
`bitmap` parameter, an `Except` carrying either the downscaled pixels or
the thrown error. -/
def suggestCrop (ctxOk : Bool) (bitmap : Except String (ℕ → ℕ → Px))
    (OW OH : ℕ) : PromiseResult (Option CropSuggestion) :=
  if ctxOk = false then .resolved none
  else
    match bitmap with
    | .error _ => .resolved none
    | .ok d => .resolved (suggestCropCore d OW OH)

/-- Claim C10: the promise returned by `suggestCrop` never rejects; with an
unavailable drawing context or an exception from the canvas steps it
resolves with null, so the caller always receives a CropSuggestion or
null. -/
theorem c10_suggestCrop_never_rejects (ctxOk : Bool)
    (bitmap : Except String (ℕ → ℕ → Px)) (OW OH : ℕ) :
    (∃ o, suggestCrop ctxOk bitmap OW OH = .resolved o) ∧
    ((ctxOk = false ∨ ∃ e, bitmap = .error e) →
      suggestCrop ctxOk bitmap OW OH = .resolved none) := by
  unfold suggestCrop
  constructor
  · by_cases hctx : ctxOk = false
    · exact ⟨none, by rw [if_pos hctx]⟩
    · rw [if_neg hctx]
      cases bitmap with
      | error e => exact ⟨none, rfl⟩
      | ok d => exact ⟨suggestCropCore d OW OH, rfl⟩
  · rintro (hctx | ⟨e, hbm⟩)
    · rw [if_pos hctx]
    · subst hbm
      by_cases hctx : ctxOk = false
      · rw [if_pos hctx]
      · rw [if_neg hctx]

theorem c10_suggestCrop_never_rejects_witness :
    ((false = false) ∨ ∃ e, (Except.ok (fun _ _ => Px.mk 0 0 0 255) :
        Except String (ℕ → ℕ → Px)) = .error e) ∧
    suggestCrop false (Except.ok (fun _ _ => Px.mk 0 0 0 255)) 1 1
      = .resolved none :=
  ⟨Or.inl rfl,
    (c10_suggestCrop_never_rejects false (Except.ok (fun _ _ => Px.mk 0 0 0 255)) 1 1).2
      (Or.inl rfl)⟩

theorem jround_le (q : ℚ) : (jround q : ℚ) ≤ q + 1/2 := by
  unfold jround
  exact_mod_cast Int.floor_le (q + 1/2)

theorem jround_nonneg (q : ℚ) (hq : 0 ≤ q) : 0 ≤ jround q := by
  unfold jround
  exact Int.floor_nonneg.mpr (by linarith)

/-- Claim C5: whenever `suggestCropCore` returns a suggestion for a
positive-dimension image, the suggestion is inside the image, has positive
width and height, and its area lies within [10%, 98%] of the original
area. -/
theorem c5_suggestCrop_invariants (d : ℕ → ℕ → Px) (OW OH : ℕ)
    (hOW : 1 ≤ OW) (hOH : 1 ≤ OH) (c : CropSuggestion)
    (hsome : suggestCropCore d OW OH = some c) :
    0 ≤ c.x ∧ 0 ≤ c.y ∧ 0 < c.width ∧ 0 < c.height ∧
    c.x + c.width ≤ (OW : ℤ) ∧ c.y + c.height ≤ (OH : ℤ) ∧
    ((OW * OH : ℕ) : ℚ) * 0.1 ≤ ((c.width * c.height : ℤ) : ℚ) ∧
    ((c.width * c.height : ℤ) : ℚ) ≤ ((OW * OH : ℕ) : ℚ) * 0.98 := by
  unfold suggestCropCore at hsome
  dsimp only at hsome
  split at hsome
  · cases hsome
  case h_2 box heq =>
  obtain ⟨t, b, l, r, hT, hB, hL, hR, hlr, htb, hbox⟩ :=
    (findBoundingBox_some_iff _ DOWNSCALE_WIDTH (downscaleHeight OW OH) box).mp heq
  have hrw : r < DOWNSCALE_WIDTH := ((scanLast_eq_some _ _ _).mp hR).1
  have hbh : b < downscaleHeight OW OH := ((scanLast_eq_some _ _ _).mp hB).1
  subst hbox
  unfold refineBox at hsome
  dsimp only at hsome
  split at hsome
  · cases hsome
  rename_i harea
  injection hsome with hsome
  subst hsome
  dsimp only
  push_neg at harea
  obtain ⟨hmin, hmax⟩ := harea
  clear hT hB hL hR heq
  -- abbreviations
  set s : ℚ := (OW : ℚ) / (DOWNSCALE_WIDTH : ℚ) with hs
  have hs_pos : 0 < s := by
    rw [hs]
    have : (0 : ℚ) < (OW : ℚ) := by exact_mod_cast hOW
    unfold DOWNSCALE_WIDTH
    positivity
  have hsOW : (DOWNSCALE_WIDTH : ℚ) * s = (OW : ℚ) := by
    rw [hs]
    unfold DOWNSCALE_WIDTH
    field_simp
  have hWcast : ((r - l : ℕ) : ℚ) = (r : ℚ) - (l : ℚ) := by
    have : l ≤ r := by omega
    push_cast [this]
    ring
  have hHcast : ((b - t : ℕ) : ℚ) = (b : ℚ) - (t : ℚ) := by
    have : t ≤ b := by omega
    push_cast [this]
    ring
  have hW1 : (1 : ℚ) ≤ (r : ℚ) - (l : ℚ) := by
    have : l + 1 ≤ r := by omega
    have hcast : ((l : ℚ) + 1) ≤ (r : ℚ) := by exact_mod_cast this
    linarith
  have hH1 : (1 : ℚ) ≤ (b : ℚ) - (t : ℚ) := by
    have : t + 1 ≤ b := by omega
    have hcast : ((t : ℚ) + 1) ≤ (b : ℚ) := by exact_mod_cast this
    linarith
  have hl0 : (0 : ℚ) ≤ (l : ℚ) := by positivity
  have ht0 : (0 : ℚ) ≤ (t : ℚ) := by positivity
  -- the four rounded outputs
  set bx : ℚ := (l : ℚ) + ((r - l : ℕ) : ℚ) * 0.02 with hbx
  set byv : ℚ := (t : ℚ) + ((b - t : ℕ) : ℚ) * 0.02 with hbyv
  set bw : ℚ := ((r - l : ℕ) : ℚ) - ((r - l : ℕ) : ℚ) * 0.02 * 2 with hbw
  set bh : ℚ := ((b - t : ℕ) : ℚ) - ((b - t : ℕ) : ℚ) * 0.02 * 2 with hbh2
  have hbx0 : 0 ≤ bx := by
    rw [hbx, hWcast]
    linarith
  have hbyv0 : 0 ≤ byv := by
    rw [hbyv, hHcast]
    linarith
  have hbw0 : 0 ≤ bw := by
    rw [hbw, hWcast]
    linarith
  have hbh0 : 0 ≤ bh := by
    rw [hbh2, hHcast]
    linarith
  have hx0 : 0 ≤ jround (bx * s) := jround_nonneg _ (by positivity)
  have hy0 : 0 ≤ jround (byv * s) := jround_nonneg _ (by positivity)
  have hw0 : 0 ≤ jround (bw * s) := jround_nonneg _ (by positivity)
  have hh0 : 0 ≤ jround (bh * s) := jround_nonneg _ (by positivity)
  -- positive area from the 10% lower bound
  have hOWOHpos : (0 : ℚ) < ((OW * OH : ℕ) : ℚ) := by
    have : 1 ≤ OW * OH := Nat.one_le_iff_ne_zero.mpr (by positivity)
    exact_mod_cast this
  have hareapos : (0 : ℚ) < ((jround (bw * s) * jround (bh * s) : ℤ) : ℚ) := by
    calc (0 : ℚ) < ((OW * OH : ℕ) : ℚ) * 0.1 := by linarith
      _ ≤ _ := hmin
  have hwpos : 0 < jround (bw * s) := by
    rcases lt_or_eq_of_le hw0 with h | h
    · exact h
    · exfalso
      rw [← h] at hareapos
      simp at hareapos
  have hhpos : 0 < jround (bh * s) := by
    rcases lt_or_eq_of_le hh0 with h | h
    · exact h
    · exfalso
      rw [← h] at hareapos
      simp at hareapos
  -- x + width ≤ OW
  have hxw : jround (bx * s) + jround (bw * s) ≤ (OW : ℤ) := by
    have h1 : (jround (bx * s) : ℚ) ≤ bx * s + 1/2 := jround_le _
    have h2 : (jround (bw * s) : ℚ) ≤ bw * s + 1/2 := jround_le _
    have hsum : bx + bw = (r : ℚ) - ((r : ℚ) - (l : ℚ)) * 0.02 := by
      rw [hbx, hbw, hWcast]
      ring
    have hr399 : (r : ℚ) ≤ (DOWNSCALE_WIDTH : ℚ) - 1 := by
      have : r + 1 ≤ DOWNSCALE_WIDTH := hrw
      have hcast : ((r : ℚ) + 1) ≤ (DOWNSCALE_WIDTH : ℚ) := by exact_mod_cast this
      linarith
    have hbound : bx + bw ≤ (DOWNSCALE_WIDTH : ℚ) - 1.02 := by
      rw [hsum]
      linarith
    have hmul : (bx + bw) * s ≤ ((DOWNSCALE_WIDTH : ℚ) - 1.02) * s :=
      mul_le_mul_of_nonneg_right hbound hs_pos.le
    have hlt : ((DOWNSCALE_WIDTH : ℚ) - 1.02) * s < (OW : ℚ) := by
      rw [← hsOW]
      have hexp : ((DOWNSCALE_WIDTH : ℚ) - 1.02) * s
          = (DOWNSCALE_WIDTH : ℚ) * s - 1.02 * s := by ring
      rw [hexp]
      linarith
    have hdist : bx * s + bw * s = (bx + bw) * s := by ring
    have hq : ((jround (bx * s) + jround (bw * s) : ℤ) : ℚ) < (OW : ℚ) + 1 := by
      push_cast
      linarith
    have hz : jround (bx * s) + jround (bw * s) < (OW : ℤ) + 1 := by
      exact_mod_cast hq
    omega
  -- y + height ≤ OH
  have hyh : jround (byv * s) + jround (bh * s) ≤ (OH : ℤ) := by
    have h1 : (jround (byv * s) : ℚ) ≤ byv * s + 1/2 := jround_le _
    have h2 : (jround (bh * s) : ℚ) ≤ bh * s + 1/2 := jround_le _
    have hsum : byv + bh = (b : ℚ) - ((b : ℚ) - (t : ℚ)) * 0.02 := by
      rw [hbyv, hbh2, hHcast]
      ring
    have hdhle : ((downscaleHeight OW OH : ℕ) : ℚ) ≤ (OH : ℚ) / s + 1/2 := by
      unfold downscaleHeight
      rw [← hs]
      have hjnn : 0 ≤ jround ((OH : ℚ) / s) := jround_nonneg _ (by positivity)
      have hcast : (((jround ((OH : ℚ) / s)).toNat : ℕ) : ℚ)
          = ((jround ((OH : ℚ) / s) : ℤ) : ℚ) := by
        exact_mod_cast Int.toNat_of_nonneg hjnn
      rw [hcast]
      exact jround_le _
    have hble : (b : ℚ) ≤ ((downscaleHeight OW OH : ℕ) : ℚ) - 1 := by
      have : b + 1 ≤ downscaleHeight OW OH := hbh
      have hcast : ((b : ℚ) + 1) ≤ ((downscaleHeight OW OH : ℕ) : ℚ) := by
        exact_mod_cast this
      linarith
    have hbound : byv + bh ≤ (OH : ℚ) / s + 1/2 - 1.02 := by
      rw [hsum]
      linarith
    have hmul : (byv + bh) * s ≤ ((OH : ℚ) / s + 1/2 - 1.02) * s :=
      mul_le_mul_of_nonneg_right hbound hs_pos.le
    have hdivmul : ((OH : ℚ) / s) * s = (OH : ℚ) :=
      div_mul_cancel₀ _ hs_pos.ne.symm
    have hlt : ((OH : ℚ) / s + 1/2 - 1.02) * s < (OH : ℚ) := by
      have hexp : ((OH : ℚ) / s + 1/2 - 1.02) * s
          = ((OH : ℚ) / s) * s - 0.52 * s := by ring
      rw [hexp, hdivmul]
      linarith
    have hdist : byv * s + bh * s = (byv + bh) * s := by ring
    have hq : ((jround (byv * s) + jround (bh * s) : ℤ) : ℚ) < (OH : ℚ) + 1 := by
      push_cast
      linarith
    have hz : jround (byv * s) + jround (bh * s) < (OH : ℤ) + 1 := by
      exact_mod_cast hq
    omega
  exact ⟨hx0, hy0, hwpos, hhpos, hxw, hyh, hmin, hmax⟩


/-- Downscaled test pattern for the witness: vertical stripes of period 4
(two black columns, two white columns). -/
def stripePx : ℕ → ℕ → Px := fun x _ =>
  if x % 4 < 2 then ⟨0, 0, 0, 255⟩ else ⟨255, 255, 255, 255⟩

theorem stripes_gray (x y : ℕ) :
    processImageForEdgeDetection stripePx x y
      = if x % 4 < 2 then 0 else 255 := by
  unfold processImageForEdgeDetection stripePx
  by_cases hx : x % 4 < 2
  · rw [if_pos hx, if_pos hx]
    norm_num [lum601, u8, rte]
  · rw [if_neg hx, if_neg hx]
    norm_num [lum601, u8, rte]
    rfl

theorem stripes_magSq (x y : ℕ) (hx : 1 ≤ x) :
    magSq (processImageForEdgeDetection stripePx) x y = 1040400 := by
  have hg : ∀ a b : ℕ, processImageForEdgeDetection stripePx a b
      = if a % 4 < 2 then 0 else 255 := stripes_gray
  unfold magSq sobelGx sobelGy
  simp only [Finset.sum_range_succ, Finset.sum_range_zero, hg]
  norm_num [sobelXKer, sobelYKer]
  have h4 : x % 4 = 0 ∨ x % 4 = 1 ∨ x % 4 = 2 ∨ x % 4 = 3 := by omega
  rcases h4 with hc | hc | hc | hc
  · have hA : (x - 1) % 4 = 3 := by omega
    have hC : (x + 1) % 4 = 1 := by omega
    rw [hA, hC, hc]
    decide
  · have hA : (x - 1) % 4 = 0 := by omega
    have hC : (x + 1) % 4 = 2 := by omega
    rw [hA, hC, hc]
    decide
  · have hA : (x - 1) % 4 = 1 := by omega
    have hC : (x + 1) % 4 = 3 := by omega
    rw [hA, hC, hc]
    decide
  · have hA : (x - 1) % 4 = 2 := by omega
    have hC : (x + 1) % 4 = 0 := by omega
    rw [hA, hC, hc]
    decide

theorem stripes_maxSq :
    sobelMaxSq (processImageForEdgeDetection stripePx) 400 4 = 1040400 := by
  unfold sobelMaxSq
  have hcongr : (Finset.Ico 1 (4 - 1) ×ˢ Finset.Ico 1 (400 - 1)).sup
      (fun p => magSq (processImageForEdgeDetection stripePx) p.2 p.1)
      = (Finset.Ico 1 (4 - 1) ×ˢ Finset.Ico 1 (400 - 1)).sup
        (fun _ => 1040400) := by
    refine Finset.sup_congr rfl fun p hp => ?_
    have hx : 1 ≤ p.2 := by
      rw [Finset.mem_product] at hp
      exact (Finset.mem_Ico.mp hp.2).1
    exact stripes_magSq p.2 p.1 hx
  rw [hcongr]
  exact Finset.sup_const ⟨(1, 1), by decide⟩ _

theorem stripes_edge (x y : ℕ) :
    sobel (processImageForEdgeDetection stripePx) 400 4 x y
      = if 1 ≤ x ∧ x + 1 < 400 ∧ 1 ≤ y ∧ y + 1 < 4 then 64 else 0 := by
  unfold sobel
  rw [stripes_maxSq, if_neg (by norm_num)]
  unfold sobelPass1
  by_cases hint : 1 ≤ x ∧ x + 1 < 400 ∧ 1 ≤ y ∧ y + 1 < 4
  · rw [if_pos hint, if_pos hint, stripes_magSq x y hint.1]
    decide
  · rw [if_neg hint, if_neg hint]
    decide

theorem stripes_rowCount_interior (y : ℕ) (hy : 1 ≤ y ∧ y + 1 < 4) :
    edgeRowCount (sobel (processImageForEdgeDetection stripePx) 400 4) 400 y
      = 398 := by
  unfold edgeRowCount
  have hsummand : ∀ x ∈ Finset.range 400,
      (if 50 < sobel (processImageForEdgeDetection stripePx) 400 4 x y
        then 1 else 0)
      = (if 1 ≤ x ∧ x + 1 < 400 then 1 else 0) := by
    intro x _
    rw [stripes_edge]
    by_cases hx : 1 ≤ x ∧ x + 1 < 400
    · rw [if_pos (show 1 ≤ x ∧ x + 1 < 400 ∧ 1 ≤ y ∧ y + 1 < 4 from
        ⟨hx.1, hx.2, hy.1, hy.2⟩), if_pos hx]
      norm_num
    · have hni : ¬(1 ≤ x ∧ x + 1 < 400 ∧ 1 ≤ y ∧ y + 1 < 4) := fun hcon =>
        hx ⟨hcon.1, hcon.2.1⟩
      rw [if_neg hni, if_neg hx]
      norm_num
  rw [Finset.sum_congr rfl hsummand]
  decide

theorem stripes_rowCount_border (y : ℕ) (hy : ¬(1 ≤ y ∧ y + 1 < 4)) :
    edgeRowCount (sobel (processImageForEdgeDetection stripePx) 400 4) 400 y
      = 0 := by
  unfold edgeRowCount
  refine Finset.sum_eq_zero fun x _ => ?_
  rw [stripes_edge]
  have hni : ¬(1 ≤ x ∧ x + 1 < 400 ∧ 1 ≤ y ∧ y + 1 < 4) := by tauto
  rw [if_neg hni]
  norm_num

theorem stripes_rowDense (y : ℕ) (hy : 1 ≤ y ∧ y + 1 < 4) :
    rowDense (sobel (processImageForEdgeDetection stripePx) 400 4) 400 y
      = true := by
  unfold rowDense
  rw [stripes_rowCount_interior y hy]
  simp only [decide_eq_true_eq]
  norm_num

theorem stripes_rowSparse (y : ℕ) (hy : ¬(1 ≤ y ∧ y + 1 < 4)) :
    rowDense (sobel (processImageForEdgeDetection stripePx) 400 4) 400 y
      = false := by
  unfold rowDense
  rw [stripes_rowCount_border y hy]
  simp only [decide_eq_false_iff_not]
  norm_num

theorem stripes_colCount (x : ℕ) :
    edgeColCount (sobel (processImageForEdgeDetection stripePx) 400 4) 4 x
      = if 1 ≤ x ∧ x + 1 < 400 then 2 else 0 := by
  unfold edgeColCount
  rw [show (4 : ℕ) = 3 + 1 from rfl, Finset.sum_range_succ,
    Finset.sum_range_succ, Finset.sum_range_succ, Finset.sum_range_succ,
    Finset.sum_range_zero, stripes_edge x 0, stripes_edge x 1,
    stripes_edge x 2, stripes_edge x 3]
  by_cases hx : 1 ≤ x ∧ x + 1 < 400
  · rw [if_pos hx,
      if_neg (show ¬(1 ≤ x ∧ x + 1 < 400 ∧ 1 ≤ 0 ∧ 0 + 1 < 4) from by omega),
      if_pos (show 1 ≤ x ∧ x + 1 < 400 ∧ 1 ≤ 1 ∧ 1 + 1 < 4 from
        ⟨hx.1, hx.2, by omega, by omega⟩),
      if_pos (show 1 ≤ x ∧ x + 1 < 400 ∧ 1 ≤ 2 ∧ 2 + 1 < 4 from
        ⟨hx.1, hx.2, by omega, by omega⟩),
      if_neg (show ¬(1 ≤ x ∧ x + 1 < 400 ∧ 1 ≤ 3 ∧ 3 + 1 < 4) from by omega)]
    norm_num
  · rw [if_neg hx,
      if_neg (show ¬(1 ≤ x ∧ x + 1 < 400 ∧ 1 ≤ 0 ∧ 0 + 1 < 4) from by omega),
      if_neg (show ¬(1 ≤ x ∧ x + 1 < 400 ∧ 1 ≤ 1 ∧ 1 + 1 < 4) from fun hcon =>
        hx ⟨hcon.1, hcon.2.1⟩),
      if_neg (show ¬(1 ≤ x ∧ x + 1 < 400 ∧ 1 ≤ 2 ∧ 2 + 1 < 4) from fun hcon =>
        hx ⟨hcon.1, hcon.2.1⟩),
      if_neg (show ¬(1 ≤ x ∧ x + 1 < 400 ∧ 1 ≤ 3 ∧ 3 + 1 < 4) from by omega)]
    norm_num

theorem stripes_colDense (x : ℕ) (hx : 1 ≤ x ∧ x + 1 < 400) :
    colDense (sobel (processImageForEdgeDetection stripePx) 400 4) 4 x
      = true := by
  unfold colDense
  rw [stripes_colCount, if_pos hx]
  simp only [decide_eq_true_eq]
  norm_num

theorem stripes_colSparse (x : ℕ) (hx : ¬(1 ≤ x ∧ x + 1 < 400)) :
    colDense (sobel (processImageForEdgeDetection stripePx) 400 4) 4 x
      = false := by
  unfold colDense
  rw [stripes_colCount, if_neg hx]
  simp only [decide_eq_false_iff_not]
  norm_num

theorem stripes_fbb :
    findBoundingBox (sobel (processImageForEdgeDetection stripePx) 400 4)
      400 4 = some ⟨1, 1, 397, 1⟩ := by
  have hT : scanFirst
      (rowDense (sobel (processImageForEdgeDetection stripePx) 400 4) 400)
      0 4 = some 1 := by
    simp [scanFirst, stripes_rowSparse 0 (by omega),
      stripes_rowDense 1 (by omega)]
  have hB : scanLast
      (rowDense (sobel (processImageForEdgeDetection stripePx) 400 4) 400)
      4 = some 2 := by
    simp [scanLast, stripes_rowSparse 3 (by omega),
      stripes_rowDense 2 (by omega)]
  have hL : scanFirst
      (colDense (sobel (processImageForEdgeDetection stripePx) 400 4) 4)
      0 400 = some 1 := by
    simp [scanFirst, stripes_colSparse 0 (by omega),
      stripes_colDense 1 (by omega)]
  have hR : scanLast
      (colDense (sobel (processImageForEdgeDetection stripePx) 400 4) 4)
      400 = some 398 := by
    simp [scanLast, stripes_colSparse 399 (by omega),
      stripes_colDense 398 (by omega)]
  have := findBoundingBox_some_of
    (sobel (processImageForEdgeDetection stripePx) 400 4) 400 4
    1 2 1 398 hT hB hL hR (by omega)
  simpa using this

theorem stripes_core :
    suggestCropCore stripePx 400 4 = some ⟨9, 1, 381, 1⟩ := by
  have hdh : downscaleHeight 400 4 = 4 := by
    unfold downscaleHeight DOWNSCALE_WIDTH jround
    norm_num
    decide
  have hfb : findBoundingBox
      (sobel (processImageForEdgeDetection stripePx) DOWNSCALE_WIDTH
        (downscaleHeight 400 4))
      DOWNSCALE_WIDTH (downscaleHeight 400 4) = some ⟨1, 1, 397, 1⟩ := by
    rw [show DOWNSCALE_WIDTH = 400 from rfl, hdh]
    exact stripes_fbb
  rw [suggestCropCore_eq_refine stripePx 400 4 ⟨1, 1, 397, 1⟩ hfb]
  unfold refineBox DOWNSCALE_WIDTH
  dsimp only
  norm_num [jround]

theorem c5_suggestCrop_invariants_witness :
    1 ≤ 400 ∧ 1 ≤ 4 ∧
    suggestCropCore stripePx 400 4 = some ⟨9, 1, 381, 1⟩ ∧
    (0 ≤ (9 : ℤ) ∧ 0 ≤ (1 : ℤ) ∧ 0 < (381 : ℤ) ∧ 0 < (1 : ℤ) ∧
      (9 : ℤ) + 381 ≤ ((400 : ℕ) : ℤ) ∧ (1 : ℤ) + 1 ≤ ((4 : ℕ) : ℤ) ∧
      ((400 * 4 : ℕ) : ℚ) * 0.1 ≤ ((381 * 1 : ℤ) : ℚ) ∧
      ((381 * 1 : ℤ) : ℚ) ≤ ((400 * 4 : ℕ) : ℚ) * 0.98) :=
  ⟨by norm_num, by norm_num, stripes_core,
    c5_suggestCrop_invariants stripePx 400 4 (by norm_num) (by norm_num)
      ⟨9, 1, 381, 1⟩ stripes_core⟩

end IDPipe





